import Mathlib

/-!
Verification of the Sverchok dataflow update engine (`node_tree.py`) and the
scheduler behaviour the specification describes for it.

The definitions below are a shallow embedding: pure structure of the code is
translated into executable Lean functions.  Blender-hosted parts (the event
dispatcher and update scheduler live outside the provided sources; only their
callers in `node_tree.py` are available) are modelled from the specification,
as marked by the doc comments starting with `Modelled from the spec:`.
-/

namespace Sverchok

/-- A node tree (Graph): nodes listed in creation order, plus directed links.
A link `(a, b)` means data flows from node `a` downstream to node `b`.
Modelled from the spec: "Graph: owns an ordered collection of Nodes and a set
of directed Links"; the concrete Graph container is host (Blender) data
absent from the sources. -/
structure Graph where
  nodes : List Nat
  links : List (Nat × Nat)
deriving DecidableEq, Repr

/-- Downstream successors of a node: targets of links leaving it. -/
def succs (g : Graph) (v : Nat) : List Nat :=
  (g.links.filter (fun l => decide (l.1 = v))).map (fun l => l.2)

/-- The set of nodes of the graph. -/
def nodeSet (g : Graph) : Finset Nat :=
  g.nodes.toFinset

/-- Every link connects nodes that belong to the graph. -/
def WellFormed (g : Graph) : Prop :=
  ∀ l ∈ g.links, l.1 ∈ g.nodes ∧ l.2 ∈ g.nodes

instance (g : Graph) : Decidable (WellFormed g) := by
  unfold WellFormed; infer_instance

/-- One expansion step of the forward closure: add all direct successors. -/
def closureStep (g : Graph) (s : Finset Nat) : Finset Nat :=
  s ∪ s.biUnion (fun v => (succs g v).toFinset)

/-- Iterated expansion of the forward closure. -/
def closureIter (g : Graph) : Nat → Finset Nat → Finset Nat
  | 0, s => s
  | k + 1, s => closureStep g (closureIter g k s)

/-- Modelled from the spec: "compute the forward closure of the given node
subset over the Graph's dependency edges (every node reachable by following
links downstream from any changed node, plus the changed nodes themselves)".
The missing scheduler computes this set; here it is computed by saturation,
which reaches its fixed point within `card (nodeSet g)` steps. -/
def forwardClosure (g : Graph) (s : Finset Nat) : Finset Nat :=
  closureIter g (nodeSet g).card s

/-- One dependency edge, as a relation. -/
def LinkStep (g : Graph) (a b : Nat) : Prop :=
  (a, b) ∈ g.links

/-- Node `v` is reachable by following links downstream from some node of `s`
(including `v ∈ s` itself): the spec's notion of forward closure. -/
def ReachesFrom (g : Graph) (s : Finset Nat) (v : Nat) : Prop :=
  ∃ r ∈ s, Relation.ReflTransGen (LinkStep g) r v

lemma mem_succs_iff {g : Graph} {a b : Nat} :
    b ∈ succs g a ↔ (a, b) ∈ g.links := by
  unfold succs
  simp only [List.mem_map, List.mem_filter, decide_eq_true_eq]
  constructor
  · rintro ⟨l, ⟨hl, h1⟩, h2⟩
    have : l = (a, b) := Prod.ext h1 h2
    simpa [this] using hl
  · intro h
    exact ⟨(a, b), ⟨h, rfl⟩, rfl⟩

lemma subset_closureStep (g : Graph) (s : Finset Nat) : s ⊆ closureStep g s :=
  Finset.subset_union_left

lemma closureIter_subset_succ (g : Graph) (k : Nat) (s : Finset Nat) :
    closureIter g k s ⊆ closureIter g (k + 1) s := by
  simpa [closureIter] using subset_closureStep g (closureIter g k s)

lemma subset_closureIter (g : Graph) (k : Nat) (s : Finset Nat) :
    s ⊆ closureIter g k s := by
  induction k with
  | zero => simp [closureIter]
  | succ k ih => exact ih.trans (closureIter_subset_succ g k s)

lemma closureStep_subset_nodeSet {g : Graph} (hwf : WellFormed g)
    {s : Finset Nat} (hs : s ⊆ nodeSet g) : closureStep g s ⊆ nodeSet g := by
  unfold closureStep
  intro v hv
  rcases Finset.mem_union.1 hv with h | h
  · exact hs h
  · rcases Finset.mem_biUnion.1 h with ⟨u, _, hv⟩
    rw [List.mem_toFinset, mem_succs_iff] at hv
    exact List.mem_toFinset.2 (hwf _ hv).2

lemma closureIter_subset_nodeSet {g : Graph} (hwf : WellFormed g)
    {s : Finset Nat} (hs : s ⊆ nodeSet g) (k : Nat) :
    closureIter g k s ⊆ nodeSet g := by
  induction k with
  | zero => simpa [closureIter]
  | succ k ih => exact closureStep_subset_nodeSet hwf ih

lemma closureIter_stab {g : Graph} {s : Finset Nat} {k : Nat}
    (h : closureIter g (k + 1) s = closureIter g k s) :
    ∀ m, closureIter g (k + m) s = closureIter g k s := by
  intro m
  induction m with
  | zero => rfl
  | succ m ih =>
      have : closureIter g (k + (m + 1)) s = closureStep g (closureIter g (k + m) s) := rfl
      rw [this, ih]
      exact h

lemma closureIter_growth {g : Graph} {s : Finset Nat}
    (h : ∀ j < (nodeSet g).card, closureIter g (j + 1) s ≠ closureIter g j s) :
    ∀ k ≤ (nodeSet g).card, k ≤ (closureIter g k s).card := by
  intro k hk
  induction k with
  | zero => simp
  | succ k ih =>
      have hk' : k ≤ (nodeSet g).card := Nat.le_of_succ_le hk
      have hlt : (closureIter g k s).card < (closureIter g (k + 1) s).card := by
        apply Finset.card_lt_card
        exact lt_of_le_of_ne (closureIter_subset_succ g k s)
          (fun e => h k (Nat.lt_of_succ_le hk) e.symm)
      exact Nat.succ_le_of_lt (lt_of_le_of_lt (ih hk') hlt)

/-- The saturation used by `forwardClosure` reaches a fixed point. -/
lemma forwardClosure_fixed {g : Graph} (hwf : WellFormed g)
    {s : Finset Nat} (hs : s ⊆ nodeSet g) :
    closureStep g (forwardClosure g s) = forwardClosure g s := by
  set n := (nodeSet g).card with hn
  by_cases hstab : ∃ j < n, closureIter g (j + 1) s = closureIter g j s
  · rcases hstab with ⟨j, hj, hfix⟩
    have h1 : forwardClosure g s = closureIter g j s := by
      have := closureIter_stab hfix (n - j)
      simpa [forwardClosure, ← hn, Nat.add_sub_cancel' (Nat.le_of_lt hj)] using this
    have h2 : closureStep g (forwardClosure g s) = closureIter g (j + 1) s := by
      rw [h1]; rfl
    rw [h2, hfix, ← h1]
  · push_neg at hstab
    have hgrow := closureIter_growth (g := g) (s := s) hstab
    have hcard : n ≤ (closureIter g n s).card := hgrow n le_rfl
    have hsub : closureIter g n s ⊆ nodeSet g := closureIter_subset_nodeSet hwf hs n
    have huniv : closureIter g n s = nodeSet g :=
      Finset.eq_of_subset_of_card_le hsub (by simpa [← hn] using hcard)
    have hstep : closureStep g (nodeSet g) = nodeSet g := by
      apply Finset.Subset.antisymm
      · exact closureStep_subset_nodeSet hwf (le_refl _)
      · exact subset_closureStep g _
    show closureStep g (closureIter g n s) = closureIter g n s
    rw [huniv, hstep]

lemma reaches_of_mem_closureIter {g : Graph} {s : Finset Nat} {k : Nat} {v : Nat}
    (hv : v ∈ closureIter g k s) : ReachesFrom g s v := by
  induction k generalizing v with
  | zero => exact ⟨v, hv, Relation.ReflTransGen.refl⟩
  | succ k ih =>
      have hv' : v ∈ closureStep g (closureIter g k s) := hv
      rcases Finset.mem_union.1 hv' with h | h
      · exact ih h
      · rcases Finset.mem_biUnion.1 h with ⟨u, hu, hv2⟩
        rcases ih hu with ⟨r, hr, hpath⟩
        rw [List.mem_toFinset, mem_succs_iff] at hv2
        exact ⟨r, hr, hpath.tail hv2⟩

/-- Membership in the computed forward closure coincides with the spec's
reachability description, for well-formed graphs. -/
lemma mem_forwardClosure_iff {g : Graph} (hwf : WellFormed g)
    {s : Finset Nat} (hs : s ⊆ nodeSet g) {v : Nat} :
    v ∈ forwardClosure g s ↔ ReachesFrom g s v := by
  constructor
  · exact reaches_of_mem_closureIter
  · rintro ⟨r, hr, hpath⟩
    induction hpath with
    | refl => exact subset_closureIter g _ s hr
    | tail _ hstep ih =>
        have hfix := forwardClosure_fixed hwf hs
        rw [← hfix]
        unfold closureStep
        apply Finset.mem_union_right
        apply Finset.mem_biUnion.2
        exact ⟨_, ih, List.mem_toFinset.2 (mem_succs_iff.2 hstep)⟩

/-- All predecessors of `v` that lie inside the closure `c` are already
placed in the execution list. -/
def noPendingPreds (g : Graph) (c : Finset Nat) (placed : List Nat) (v : Nat) : Bool :=
  g.links.all (fun l => !(decide (l.2 = v) && decide (l.1 ∈ c)) || decide (l.1 ∈ placed))

/-- First node, in creation order, that belongs to the closure, is not yet
placed, and has all its in-closure predecessors placed. -/
def pickNext (g : Graph) (c : Finset Nat) (placed : List Nat) : Option Nat :=
  g.nodes.find? (fun v => decide (v ∈ c) && !(decide (v ∈ placed)) && noPendingPreds g c placed v)

/-- The scheduling loop: repeatedly place the next ready node. -/
def topoLoop (g : Graph) (c : Finset Nat) : Nat → List Nat → List Nat
  | 0, placed => placed
  | fuel + 1, placed =>
      match pickNext g c placed with
      | none => placed
      | some v => topoLoop g c fuel (placed ++ [v])

/-- Modelled from the spec: "evaluate only that closure, in topological order
restricted to it", with "a deterministic linearization (ties broken by node
creation order)".  The scheduler source is not among the provided files;
this is the execution order of one update pass over the node set `c`. -/
def schedule (g : Graph) (c : Finset Nat) : List Nat :=
  topoLoop g c c.card []

/-- Modelled from the spec: the pass run for a PropertyChanged event with
changed-node subset `changed`: the forward closure of the changed nodes,
executed in topological order restricted to that closure. -/
def propertyPass (g : Graph) (changed : List Nat) : List Nat :=
  schedule g (forwardClosure g changed.toFinset)

/-- Modelled from the spec: the pass run for a SceneChanged event: "evaluate
exactly the nodes with `is_interactive == true` (and their downstream forward
closure, same closure rule as PropertyChanged)".  The `interactive` argument
is each node's `is_interactive` flag (`node_tree.py` lines 279-295). -/
def scenePass (g : Graph) (interactive : Nat → Bool) : List Nat :=
  schedule g (forwardClosure g (g.nodes.filter interactive).toFinset)

/-- Invariant of the scheduling loop: the execution list has no repetition,
stays inside the closure, contains all in-closure predecessors of each of its
members, and never lists a link target before the link source. -/
def SchedInv (g : Graph) (c : Finset Nat) (placed : List Nat) : Prop :=
  placed.Nodup ∧
  (∀ a ∈ placed, a ∈ c) ∧
  (∀ a ∈ placed, ∀ l ∈ g.links, l.2 = a → l.1 ∈ c → l.1 ∈ placed) ∧
  placed.Pairwise (fun x y => (y, x) ∉ g.links)

lemma schedInv_nil (g : Graph) (c : Finset Nat) : SchedInv g c [] := by
  refine ⟨List.nodup_nil, ?_, ?_, List.Pairwise.nil⟩ <;> simp

lemma pickNext_spec {g : Graph} {c : Finset Nat} {placed : List Nat} {v : Nat}
    (h : pickNext g c placed = some v) :
    v ∈ g.nodes ∧ v ∈ c ∧ v ∉ placed ∧
      (∀ l ∈ g.links, l.2 = v → l.1 ∈ c → l.1 ∈ placed) := by
  have hmem : v ∈ g.nodes := List.mem_of_find?_eq_some h
  have hp := List.find?_some h
  simp only [noPendingPreds, Bool.and_eq_true, Bool.not_eq_true', List.all_eq_true,
    decide_eq_true_eq, decide_eq_false_iff_not, Bool.or_eq_true, Bool.not_eq_true,
    Bool.and_eq_false_iff, decide_eq_false_iff_not] at hp
  refine ⟨hmem, hp.1.1, hp.1.2, ?_⟩
  intro l hl h2 h1
  rcases hp.2 l hl with hor | hor
  · rcases hor with hor | hor
    · exact absurd h2 hor
    · exact absurd h1 hor
  · exact hor

lemma schedInv_step {g : Graph} {c : Finset Nat} {placed : List Nat} {v : Nat}
    (hinv : SchedInv g c placed) (h : pickNext g c placed = some v) :
    SchedInv g c (placed ++ [v]) := by
  obtain ⟨hnd, hin, hpred, hpw⟩ := hinv
  obtain ⟨hvnodes, hvc, hvnew, hvpred⟩ := pickNext_spec h
  refine ⟨?_, ?_, ?_, ?_⟩
  · simp [List.nodup_append, hnd, hvnew]
  · intro a ha
    rcases List.mem_append.1 ha with ha | ha
    · exact hin a ha
    · simp only [List.mem_singleton] at ha
      exact ha ▸ hvc
  · intro a ha l hl h2 h1
    rcases List.mem_append.1 ha with ha | ha
    · exact List.mem_append_left _ (hpred a ha l hl h2 h1)
    · simp only [List.mem_singleton] at ha
      exact List.mem_append_left _ (hvpred l hl (h2.trans ha) h1)
  · rw [List.pairwise_append]
    refine ⟨hpw, List.pairwise_singleton _ _, ?_⟩
    intro a ha b hb hlink
    simp only [List.mem_singleton] at hb
    rw [hb] at hlink
    exact hvnew (hpred a ha (v, a) hlink rfl hvc)

lemma schedInv_loop {g : Graph} {c : Finset Nat} (fuel : Nat) (placed : List Nat)
    (hinv : SchedInv g c placed) : SchedInv g c (topoLoop g c fuel placed) := by
  induction fuel generalizing placed with
  | zero => exact hinv
  | succ fuel ih =>
      unfold topoLoop
      cases hpick : pickNext g c placed with
      | none => exact hinv
      | some v => exact ih _ (schedInv_step hinv hpick)

lemma schedInv_schedule (g : Graph) (c : Finset Nat) :
    SchedInv g c (schedule g c) :=
  schedInv_loop _ _ (schedInv_nil g c)

/-- As long as the closure is not exhausted, a ready node exists: the node of
minimal rank among the unplaced closure nodes (ranks exist because the graph
is a DAG: every link strictly increases rank). -/
lemma pickNext_progress {g : Graph} {c : Finset Nat} {placed : List Nat}
    (hc : c ⊆ nodeSet g) (rk : Nat → Nat)
    (hrk : ∀ l ∈ g.links, rk l.1 < rk l.2)
    (hne : ¬ c ⊆ placed.toFinset) :
    (pickNext g c placed).isSome := by
  have hD : (c \ placed.toFinset).Nonempty := Finset.sdiff_nonempty.2 hne
  obtain ⟨u, huD, humin⟩ := Finset.exists_min_image (c \ placed.toFinset) rk hD
  obtain ⟨huc, hunp⟩ := Finset.mem_sdiff.1 huD
  rw [List.mem_toFinset] at hunp
  have hun : u ∈ g.nodes := List.mem_toFinset.1 (hc huc)
  rw [pickNext, List.find?_isSome]
  refine ⟨u, hun, ?_⟩
  simp only [noPendingPreds, Bool.and_eq_true, Bool.not_eq_true', List.all_eq_true,
    decide_eq_true_eq, decide_eq_false_iff_not]
  refine ⟨⟨huc, hunp⟩, ?_⟩
  intro l hl
  rcases Decidable.em (l.2 = u ∧ l.1 ∈ c) with hcase | hcase
  · have hplaced : l.1 ∈ placed := by
      by_contra hnp
      have hmem : l.1 ∈ c \ placed.toFinset :=
        Finset.mem_sdiff.2 ⟨hcase.2, fun hm => hnp (List.mem_toFinset.1 hm)⟩
      have hle := humin l.1 hmem
      have hlt := hrk l hl
      rw [hcase.1] at hlt
      exact absurd hle (Nat.not_le.2 hlt)
    simp [hplaced]
  · rcases Decidable.not_and_iff_or_not.1 hcase with h | h <;> simp [h]

/-- With enough fuel the scheduling loop places the whole closure,
provided the graph is well formed and acyclic (witnessed by a rank). -/
lemma topoLoop_complete {g : Graph} {c : Finset Nat}
    (hc : c ⊆ nodeSet g) (rk : Nat → Nat)
    (hrk : ∀ l ∈ g.links, rk l.1 < rk l.2) :
    ∀ (fuel : Nat) (placed : List Nat), SchedInv g c placed →
      c.card ≤ placed.length + fuel → (topoLoop g c fuel placed).toFinset = c := by
  intro fuel
  induction fuel with
  | zero =>
      intro placed hinv hcard
      have hsub : placed.toFinset ⊆ c := fun a ha =>
        hinv.2.1 a (List.mem_toFinset.1 ha)
      apply Finset.eq_of_subset_of_card_le hsub
      rw [List.toFinset_card_of_nodup hinv.1]
      simpa using hcard
  | succ fuel ih =>
      intro placed hinv hcard
      unfold topoLoop
      cases hpick : pickNext g c placed with
      | none =>
          have hsub : placed.toFinset ⊆ c := fun a ha =>
            hinv.2.1 a (List.mem_toFinset.1 ha)
          apply Finset.eq_of_subset_of_card_le hsub
          by_contra hlt
          have hne : ¬ c ⊆ placed.toFinset := by
            intro hcc
            exact hlt (Finset.card_le_card hcc)
          have := pickNext_progress hc rk hrk hne
          rw [hpick] at this
          simp at this
      | some v =>
          apply ih _ (schedInv_step hinv hpick)
          simpa [Nat.add_assoc, Nat.add_comm 1 fuel] using hcard

/-- The full pass over a closure `c` executes exactly the nodes of `c`. -/
lemma schedule_toFinset {g : Graph} {c : Finset Nat}
    (hc : c ⊆ nodeSet g) (rk : Nat → Nat)
    (hrk : ∀ l ∈ g.links, rk l.1 < rk l.2) :
    (schedule g c).toFinset = c :=
  topoLoop_complete hc rk hrk c.card [] (schedInv_nil g c) (by simp)

/-- In any list satisfying the scheduling invariant, a link source is placed
strictly before the link target. -/
lemma schedInv_link_order {g : Graph} {c : Finset Nat} {ord : List Nat}
    (hinv : SchedInv g c ord) {a b : Nat}
    (hlink : (a, b) ∈ g.links) (hne : a ≠ b)
    (ha : a ∈ ord) (hb : b ∈ ord) :
    ord.indexOf a < ord.indexOf b := by
  have hia : ord.indexOf a < ord.length := List.indexOf_lt_length.2 ha
  have hib : ord.indexOf b < ord.length := List.indexOf_lt_length.2 hb
  have hget_a : ord[ord.indexOf a] = a := List.getElem_indexOf hia
  have hget_b : ord[ord.indexOf b] = b := List.getElem_indexOf hib
  rcases Nat.lt_trichotomy (ord.indexOf a) (ord.indexOf b) with h | h | h
  · exact h
  · exfalso
    apply hne
    rw [← hget_a, ← hget_b]
    simp only [h]
  · exfalso
    have hpw := List.pairwise_iff_getElem.1 hinv.2.2.2
    have hR := hpw _ _ hib hia h
    rw [hget_a, hget_b] at hR
    exact hR hlink

/-- The forward closure is closed under following links downstream. -/
lemma forwardClosure_closed {g : Graph} (hwf : WellFormed g)
    {s : Finset Nat} (hs : s ⊆ nodeSet g) {a b : Nat}
    (ha : a ∈ forwardClosure g s) (hab : (a, b) ∈ g.links) :
    b ∈ forwardClosure g s := by
  rw [← forwardClosure_fixed hwf hs]
  unfold closureStep
  apply Finset.mem_union_right
  exact Finset.mem_biUnion.2 ⟨a, ha, List.mem_toFinset.2 (mem_succs_iff.2 hab)⟩

lemma mem_of_rtg_closed {g : Graph} {c : Finset Nat}
    (hclosed : ∀ a b, a ∈ c → (a, b) ∈ g.links → b ∈ c) {a b : Nat}
    (ha : a ∈ c) (hab : Relation.ReflTransGen (LinkStep g) a b) : b ∈ c := by
  induction hab with
  | refl => exact ha
  | tail _ hstep ih => exact hclosed _ _ ih hstep

lemma ne_of_rank {g : Graph} {rk : Nat → Nat}
    (hrk : ∀ l ∈ g.links, rk l.1 < rk l.2) {a b : Nat}
    (h : (a, b) ∈ g.links) : a ≠ b := by
  intro e
  have := hrk (a, b) h
  rw [e] at this
  exact lt_irrefl _ this

/-- Ancestors execute strictly earlier: the execution order respects every
dependency path whose endpoints are executed. -/
lemma schedule_transGen_order {g : Graph} {c : Finset Nat}
    (hc : c ⊆ nodeSet g) (rk : Nat → Nat)
    (hrk : ∀ l ∈ g.links, rk l.1 < rk l.2)
    (hclosed : ∀ a b, a ∈ c → (a, b) ∈ g.links → b ∈ c) {a b : Nat}
    (hpath : Relation.TransGen (LinkStep g) a b)
    (ha : a ∈ schedule g c) (hb : b ∈ schedule g c) :
    (schedule g c).indexOf a < (schedule g c).indexOf b := by
  have hinv := schedInv_schedule g c
  have hset := schedule_toFinset hc rk hrk
  have hmem_iff : ∀ v, v ∈ schedule g c ↔ v ∈ c := by
    intro v
    rw [← List.mem_toFinset, hset]
  induction hpath with
  | single hstep =>
      exact schedInv_link_order hinv hstep (ne_of_rank hrk hstep) ha hb
  | tail hsteps hstep ih =>
      rename_i m _
      have hm : m ∈ c :=
        mem_of_rtg_closed hclosed ((hmem_iff a).1 ha) hsteps.to_reflTransGen
      have hm' : m ∈ schedule g c := (hmem_iff m).2 hm
      exact lt_trans (ih hm')
        (schedInv_link_order hinv hstep (ne_of_rank hrk hstep) hm' hb)

/-- C1: For every Graph `g` and every PropertyChanged event with changed-node
subset `changed`, the set of nodes executed by the resulting pass equals the
forward closure of `changed` over `g`'s links (every node reachable by
following links downstream from any changed node, plus the changed nodes
themselves), each node executes exactly once, and the execution order is a
valid topological order of that closure: no node executes before any of its
ancestors inside the closure. -/
theorem propertyPass_closure_topo (g : Graph) (changed : List Nat)
    (hwf : WellFormed g) (hchanged : ∀ v ∈ changed, v ∈ g.nodes)
    (rk : Nat → Nat) (hrk : ∀ l ∈ g.links, rk l.1 < rk l.2) :
    (∀ v, v ∈ propertyPass g changed ↔ ReachesFrom g changed.toFinset v) ∧
    (propertyPass g changed).Nodup ∧
    (∀ a b, Relation.TransGen (LinkStep g) a b →
      a ∈ propertyPass g changed → b ∈ propertyPass g changed →
      (propertyPass g changed).indexOf a < (propertyPass g changed).indexOf b) := by
  have hs : changed.toFinset ⊆ nodeSet g := by
    intro v hv
    exact List.mem_toFinset.2 (hchanged v (List.mem_toFinset.1 hv))
  have hc : forwardClosure g changed.toFinset ⊆ nodeSet g :=
    closureIter_subset_nodeSet hwf hs _
  have hclosed : ∀ a b, a ∈ forwardClosure g changed.toFinset →
      (a, b) ∈ g.links → b ∈ forwardClosure g changed.toFinset :=
    fun a b ha hab => forwardClosure_closed hwf hs ha hab
  refine ⟨?_, (schedInv_schedule g _).1, ?_⟩
  · intro v
    rw [propertyPass, ← List.mem_toFinset, schedule_toFinset hc rk hrk]
    exact mem_forwardClosure_iff hwf hs
  · intro a b hpath ha hb
    exact schedule_transGen_order hc rk hrk hclosed hpath ha hb

/-- Witness for C1 on a concrete graph `1 → 2 → 3`, node `4` unlinked,
changed subset `{1}`, with the identity function as topological rank. -/
theorem propertyPass_closure_topo_witness :
    (WellFormed ⟨[1, 2, 3, 4], [(1, 2), (2, 3)]⟩ ∧
     (∀ v ∈ [1], v ∈ (Graph.mk [1, 2, 3, 4] [(1, 2), (2, 3)]).nodes) ∧
     (∀ l ∈ (Graph.mk [1, 2, 3, 4] [(1, 2), (2, 3)]).links, id l.1 < id l.2)) ∧
    ((∀ v, v ∈ propertyPass ⟨[1, 2, 3, 4], [(1, 2), (2, 3)]⟩ [1] ↔
        ReachesFrom ⟨[1, 2, 3, 4], [(1, 2), (2, 3)]⟩ ([1] : List Nat).toFinset v) ∧
     (propertyPass ⟨[1, 2, 3, 4], [(1, 2), (2, 3)]⟩ [1]).Nodup ∧
     (∀ a b, Relation.TransGen (LinkStep ⟨[1, 2, 3, 4], [(1, 2), (2, 3)]⟩) a b →
        a ∈ propertyPass ⟨[1, 2, 3, 4], [(1, 2), (2, 3)]⟩ [1] →
        b ∈ propertyPass ⟨[1, 2, 3, 4], [(1, 2), (2, 3)]⟩ [1] →
        (propertyPass ⟨[1, 2, 3, 4], [(1, 2), (2, 3)]⟩ [1]).indexOf a <
          (propertyPass ⟨[1, 2, 3, 4], [(1, 2), (2, 3)]⟩ [1]).indexOf b)) :=
  ⟨⟨by decide, by decide, by decide⟩,
    propertyPass_closure_topo ⟨[1, 2, 3, 4], [(1, 2), (2, 3)]⟩ [1]
      (by decide) (by decide) id (by decide)⟩

/-- Interactive roots of a scene pass are nodes of the graph. -/
lemma sceneRoots_subset (g : Graph) (interactive : Nat → Bool) :
    (g.nodes.filter interactive).toFinset ⊆ nodeSet g := by
  intro v hv
  rw [List.mem_toFinset, List.mem_filter] at hv
  exact List.mem_toFinset.2 hv.1

/-- Membership in a scene pass is reachability from an interactive root. -/
lemma scenePass_mem_iff {g : Graph} (hwf : WellFormed g)
    (interactive : Nat → Bool) (rk : Nat → Nat)
    (hrk : ∀ l ∈ g.links, rk l.1 < rk l.2) (v : Nat) :
    v ∈ scenePass g interactive ↔
      ReachesFrom g (g.nodes.filter interactive).toFinset v := by
  have hs := sceneRoots_subset g interactive
  have hc : forwardClosure g (g.nodes.filter interactive).toFinset ⊆ nodeSet g :=
    closureIter_subset_nodeSet hwf hs _
  rw [scenePass, ← List.mem_toFinset, schedule_toFinset hc rk hrk]
  exact mem_forwardClosure_iff hwf hs

/-- Adding to the roots a node already inside the closure leaves the closure
unchanged. -/
lemma forwardClosure_insert_of_mem {g : Graph} (hwf : WellFormed g)
    {s : Finset Nat} (hs : s ⊆ nodeSet g) {w : Nat}
    (hw : w ∈ forwardClosure g s) :
    forwardClosure g (insert w s) = forwardClosure g s := by
  have hwuniv : w ∈ nodeSet g := closureIter_subset_nodeSet hwf hs _ hw
  have hs' : insert w s ⊆ nodeSet g := Finset.insert_subset hwuniv hs
  ext v
  rw [mem_forwardClosure_iff hwf hs', mem_forwardClosure_iff hwf hs]
  constructor
  · rintro ⟨r, hr, hpath⟩
    rcases Finset.mem_insert.1 hr with hr | hr
    · rcases (mem_forwardClosure_iff hwf hs).1 hw with ⟨r0, hr0, hpath0⟩
      exact ⟨r0, hr0, hpath0.trans (hr ▸ hpath)⟩
    · exact ⟨r, hr, hpath⟩
  · rintro ⟨r, hr, hpath⟩
    exact ⟨r, Finset.mem_insert_of_mem hr, hpath⟩

/-- Switching on the `is_interactive` flag of a node `w` that is not a root
adds `w` to the scene-pass roots. -/
lemma sceneRoots_toggle {g : Graph} {interactive : Nat → Bool} {w : Nat}
    (hw_nodes : w ∈ g.nodes) :
    (g.nodes.filter (fun x => if x = w then true else interactive x)).toFinset =
      insert w (g.nodes.filter interactive).toFinset := by
  ext v
  simp only [List.mem_toFinset, List.mem_filter, Finset.mem_insert]
  by_cases hv : v = w
  · subst hv
    simp [hw_nodes]
  · simp [hv]

/-- C3: the set of nodes evaluated by a SceneChanged pass is exactly the
nodes whose `is_interactive` flag is true together with their downstream
forward closure; and the flag of a node `w` that is reached as a closure
member is irrelevant: switching it on yields the identical pass. -/
theorem scenePass_roots_and_closure (g : Graph) (interactive : Nat → Bool)
    (hwf : WellFormed g) (rk : Nat → Nat)
    (hrk : ∀ l ∈ g.links, rk l.1 < rk l.2) (w : Nat)
    (hw_nodes : w ∈ g.nodes) (hw_off : interactive w = false)
    (hw_reached : w ∈ forwardClosure g (g.nodes.filter interactive).toFinset) :
    (∀ v, v ∈ scenePass g interactive ↔
        ReachesFrom g (g.nodes.filter interactive).toFinset v) ∧
    scenePass g (fun x => if x = w then true else interactive x) =
      scenePass g interactive := by
  refine ⟨scenePass_mem_iff hwf interactive rk hrk, ?_⟩
  unfold scenePass
  rw [sceneRoots_toggle hw_nodes,
    forwardClosure_insert_of_mem hwf (sceneRoots_subset g interactive) hw_reached]

/-- Witness for C3: graph `1 → 2`, node 1 interactive, node 2 not; node 2 is
reached as a closure member, and toggling its flag changes nothing. -/
theorem scenePass_roots_and_closure_witness :
    (WellFormed ⟨[1, 2], [(1, 2)]⟩ ∧
     (∀ l ∈ (Graph.mk [1, 2] [(1, 2)]).links, id l.1 < id l.2) ∧
     2 ∈ (Graph.mk [1, 2] [(1, 2)]).nodes ∧
     (fun x => x == 1) 2 = false ∧
     2 ∈ forwardClosure ⟨[1, 2], [(1, 2)]⟩
        ((Graph.mk [1, 2] [(1, 2)]).nodes.filter (fun x => x == 1)).toFinset) ∧
    ((∀ v, v ∈ scenePass ⟨[1, 2], [(1, 2)]⟩ (fun x => x == 1) ↔
        ReachesFrom ⟨[1, 2], [(1, 2)]⟩
          ((Graph.mk [1, 2] [(1, 2)]).nodes.filter (fun x => x == 1)).toFinset v) ∧
     scenePass ⟨[1, 2], [(1, 2)]⟩ (fun x => if x = 2 then true else x == 1) =
       scenePass ⟨[1, 2], [(1, 2)]⟩ (fun x => x == 1)) :=
  ⟨⟨by decide, by decide, by decide, by decide, by decide⟩,
    scenePass_roots_and_closure ⟨[1, 2], [(1, 2)]⟩ (fun x => x == 1)
      (by decide) id (by decide) 2 (by decide) (by decide) (by decide)⟩

/-- C4 counterexample: in the graph `1 → 2` where node 1 is interactive and
node 2 is not, node 2 nevertheless executes in the SceneChanged pass, because
it lies in the forward closure of the interactive root 1.  This refutes the
claim that a node with `is_interactive = false` never executes in response
to a SceneChanged event. -/
theorem scenePass_non_interactive_executes :
    (fun x => x == 1) 2 = false ∧
    2 ∈ scenePass ⟨[1, 2], [(1, 2)]⟩ (fun x => x == 1) := by
  decide

/-- C4 (amended): a node whose `is_interactive` flag is false executes in
response to a SceneChanged event exactly when it is downstream of an
interactive node: it executes iff some node with the flag on reaches it by
following links downstream; it is never itself a root of the pass. -/
theorem scenePass_non_interactive_iff_downstream (g : Graph)
    (interactive : Nat → Bool) (hwf : WellFormed g) (rk : Nat → Nat)
    (hrk : ∀ l ∈ g.links, rk l.1 < rk l.2) (v : Nat)
    (hv_off : interactive v = false) :
    v ∈ scenePass g interactive ↔
      ∃ r ∈ g.nodes, interactive r = true ∧
        Relation.ReflTransGen (LinkStep g) r v := by
  rw [scenePass_mem_iff hwf interactive rk hrk]
  unfold ReachesFrom
  constructor
  · rintro ⟨r, hr, hpath⟩
    rw [List.mem_toFinset, List.mem_filter] at hr
    exact ⟨r, hr.1, hr.2, hpath⟩
  · rintro ⟨r, hr, hron, hpath⟩
    exact ⟨r, by rw [List.mem_toFinset, List.mem_filter]; exact ⟨hr, hron⟩, hpath⟩

/-- Witness for the amended C4 on the graph `1 → 2`: node 2 is not
interactive, and its execution is equivalent to being downstream of the
interactive node 1. -/
theorem scenePass_non_interactive_iff_downstream_witness :
    (WellFormed ⟨[1, 2], [(1, 2)]⟩ ∧
     (∀ l ∈ (Graph.mk [1, 2] [(1, 2)]).links, id l.1 < id l.2) ∧
     (fun x => x == 1) 2 = false) ∧
    (2 ∈ scenePass ⟨[1, 2], [(1, 2)]⟩ (fun x => x == 1) ↔
      ∃ r ∈ (Graph.mk [1, 2] [(1, 2)]).nodes, (fun x => x == 1) r = true ∧
        Relation.ReflTransGen (LinkStep ⟨[1, 2], [(1, 2)]⟩) r 2) :=
  ⟨⟨by decide, by decide, by decide⟩,
    scenePass_non_interactive_iff_downstream ⟨[1, 2], [(1, 2)]⟩
      (fun x => x == 1) (by decide) id (by decide) 2 (by decide)⟩

/-- The observable actions of a node's `update` method. -/
inductive NodeAction where
  | svUpdate
deriving DecidableEq, Repr

/-- From `UpdateNodes.update` (`node_tree.py` lines 431-449): if the owning
tree carries the `init_tree` flag (set by `SvNodeTreeCommon.init_tree`), the
method returns before doing anything; otherwise it calls `sv_update` once.
The returned list is the sequence of actions the call performs. -/
def nodeUpdate (initTreeFlag : Bool) : List NodeAction :=
  if initTreeFlag then [] else [NodeAction.svUpdate]

/-- From `SvNodeTreeCommon.init_tree` (`node_tree.py` lines 95-111), scope
entry: record whether the `init_tree` flag was already present and set it.
Returns the flag state inside the scope and the recorded token. -/
def initTreeEnter (flag : Bool) : Bool × Bool :=
  if flag then (flag, true) else (true, false)

/-- Scope exit, run in a `finally` block (hence it runs both on normal exit
and when the body raises): only the scope that set the flag deletes it; a
scope entered while the flag was already present leaves the state alone. -/
def initTreeExit (wasAlready : Bool) (flag : Bool) : Bool :=
  if wasAlready then flag else false

/-- A node's identity fields: its `n_id` string and its sockets' `s_id`
strings (`node_tree.py` lines 258-271 and 420-429). -/
structure SvNode where
  n_id : String
  socketIds : List String
deriving DecidableEq, Repr

/-- From `UpdateNodes.copy` (`node_tree.py` lines 420-429): upon the node
being copied, the copy's `n_id` is reset to the empty string and every
socket's `s_id` is cleared. -/
def copyNode (n : SvNode) : SvNode :=
  { n with n_id := "", socketIds := n.socketIds.map (fun _ => "") }

/-- From `UpdateNodes.node_id` (`node_tree.py` lines 266-271): reading the
property stores `fresh` (modelling `str(hash(self) ^ hash(time.monotonic()))`)
when the stored id is empty, then returns the stored id. -/
def nodeId (fresh : String) (n : SvNode) : SvNode × String :=
  if n.n_id = "" then ({ n with n_id := fresh }, fresh) else (n, n.n_id)

/-- The Graph-mutation failures named by the spec's `add_link` contract. -/
inductive LinkError where
  | fanIn
  | cycle
deriving DecidableEq, Repr

/-- Modelled from the spec: the Graph's `add_link(from_socket, to_socket)`
operation; the link container is host (Blender) data absent from the
sources.  Host semantics for an occupied destination: "new link replaces
old, so this is implemented as 'replace', not an error, matching observed
behavior of `tree.links.new` overwriting".  Links are (from-socket,
to-socket) pairs; any existing link into the destination socket is dropped
and the new link is appended; no `FanInError` is produced. -/
def addLink (links : List (Nat × Nat)) (l : Nat × Nat) :
    Except LinkError (List (Nat × Nat)) :=
  Except.ok ((links.filter (fun e => !(decide (e.2 = l.2)))) ++ [l])

/-- The Event variants the tree sends to the dispatcher (`node_tree.py`
lines 227-252; the event classes themselves are not among the sources). -/
inductive Event where
  | topology
  | property (changed : List Nat)
  | scene
  | frame (frameChanged : Bool) (animationPlaying : Bool)
  | force
deriving DecidableEq, Repr

/-- The tree-level master switches (`node_tree.py` lines 162-225). -/
structure TreeSettings where
  sv_process : Bool
  sv_animate : Bool
  sv_scene_update : Bool
deriving DecidableEq, Repr

/-- Modelled from the spec: the dispatcher's root gating; the dispatcher
source (`sverchok.core.event_system`) is not among the provided files.  A
pass always runs for ForceFullRebuild; topology, property and scene events
run only with the master `sv_process` flag on (scene events additionally
require `sv_scene_update`, per `node_tree.py` lines 211-225); and frame
change events are gated by `sv_animate` alone, per the `sv_process`
documentation in the source (lines 169-173: the property "does not effect
evaluation upon `SverchCustomTree.sv_animate` changes") and the `sv_animate`
documentation (lines 175-182). -/
def passRuns (ts : TreeSettings) : Event → Bool
  | Event.topology => ts.sv_process
  | Event.property _ => ts.sv_process
  | Event.scene => ts.sv_process && ts.sv_scene_update
  | Event.frame _ _ => ts.sv_animate
  | Event.force => true

/-- The error taxonomy `UpdateNodes.update_ui` distinguishes: `SvNoDataError`
versus any other exception (`node_tree.py` line 462), each carrying the
message that `str(error)` yields. -/
inductive SvError where
  | noData (msg : String)
  | exception (msg : String)
deriving DecidableEq, Repr

/-- Test `isinstance(error, SvNoDataError)` (`node_tree.py` line 462). -/
def isNoData : SvError → Bool
  | SvError.noData _ => true
  | SvError.exception _ => false

/-- Computes `str(error)`: the text drawn next to the node. -/
def errorText : SvError → String
  | SvError.noData m => m
  | SvError.exception m => m

/-- The add-on preference colors read by `update_ui` (`node_tree.py` lines
454-456); colors are represented by numeric codes. -/
structure Prefs where
  exception_color : Nat
  no_data_color : Nat
deriving DecidableEq, Repr

/-- The per-node visual state `update_ui` manipulates: the node color with
the saved user color (`set_temp_color`, lines 755-774), plus the two bgl
text drawings keyed `error_pref + node_id` and `update_pref + node_id`. -/
structure NodeUI where
  use_custom_color : Bool
  color : Nat
  savedUserColor : Option (Bool × Nat)
  errorDrawing : Option (String × Nat)
  timeDrawing : Option String
deriving DecidableEq, Repr

/-- From `SverchCustomTreeNode.set_temp_color` (`node_tree.py` lines
755-774): with a color, memorize the initial color once and override it;
with `none`, restore the memorized color if one was saved, else do nothing. -/
def set_temp_color (n : NodeUI) (color : Option Nat) : NodeUI :=
  match color with
  | none =>
      match n.savedUserColor with
      | some uc => { n with use_custom_color := uc.1, color := uc.2, savedUserColor := none }
      | none => n
  | some c =>
      let saved := match n.savedUserColor with
        | none => some (n.use_custom_color, n.color)
        | some s => some s
      { n with savedUserColor := saved, use_custom_color := true, color := c }

/-- From `UpdateNodes.update_ui` (`node_tree.py` lines 451-474): a non-None
error colors the node (`no_data_color` for `SvNoDataError`, otherwise
`exception_color`) and draws `str(error)`; `error=None` disables the error
drawing and restores the node's color.  A non-None duration draws the
timing text; `update_time=None` disables it.  Durations are modelled in
whole milliseconds (the source converts float seconds with
`int(update_time * 1000)`; the claims do not depend on that conversion). -/
def update_ui (prefs : Prefs) (error : Option SvError) (update_time : Option Nat)
    (n : NodeUI) : NodeUI :=
  let n1 :=
    match error with
    | some e =>
        let color := if isNoData e then prefs.no_data_color else prefs.exception_color
        { set_temp_color n (some color) with errorDrawing := some (errorText e, color) }
    | none =>
        { set_temp_color n none with errorDrawing := none }
  match update_time with
  | some t => { n1 with timeDrawing := some (toString t ++ "ms") }
  | none => { n1 with timeDrawing := none }

/-- C2: while the owning tree carries the `init_tree` mark, a node's
`update` performs no action (it returns before invoking `sv_update` or any
scheduling); when the flag is absent, `update` calls `sv_update` exactly
once. -/
theorem nodeUpdate_init_gate :
    nodeUpdate true = [] ∧
    nodeUpdate false = [NodeAction.svUpdate] ∧
    (nodeUpdate false).count NodeAction.svUpdate = 1 := by
  decide

/-- C5 counterexample: with `sv_process` off but `sv_animate` on, a
FrameChanged event still runs a pass, refuting the claim that every event
other than ForceFullRebuild is a no-op while `sv_process` is off.  This
matches the `sv_process` documentation in the source: the flag "does not
effect evaluation upon `SverchCustomTree.sv_animate` changes". -/
theorem sv_process_off_frame_still_runs :
    (TreeSettings.mk false true true).sv_process = false ∧
    passRuns ⟨false, true, true⟩ (Event.frame true true) = true := by
  decide

/-- C5 (amended): for every Graph whose `sv_process` flag is off, every
TopologyChanged, PropertyChanged and SceneChanged event is a no-op, while
ForceFullRebuild still runs; FrameChanged events are governed by the
separate `sv_animate` flag instead. -/
theorem sv_process_off_gates (ts : TreeSettings) (h : ts.sv_process = false) :
    passRuns ts Event.topology = false ∧
    (∀ changed, passRuns ts (Event.property changed) = false) ∧
    passRuns ts Event.scene = false ∧
    passRuns ts Event.force = true ∧
    (∀ fc ap, passRuns ts (Event.frame fc ap) = ts.sv_animate) := by
  refine ⟨by simp [passRuns, h], fun _ => by simp [passRuns, h],
    by simp [passRuns, h], by simp [passRuns], fun _ _ => by simp [passRuns]⟩

/-- Witness for C5 (amended) at a concrete settings record. -/
theorem sv_process_off_gates_witness :
    (TreeSettings.mk false true true).sv_process = false ∧
    (passRuns ⟨false, true, true⟩ Event.topology = false ∧
     (∀ changed, passRuns ⟨false, true, true⟩ (Event.property changed) = false) ∧
     passRuns ⟨false, true, true⟩ Event.scene = false ∧
     passRuns ⟨false, true, true⟩ Event.force = true ∧
     (∀ fc ap, passRuns ⟨false, true, true⟩ (Event.frame fc ap) =
        (TreeSettings.mk false true true).sv_animate)) :=
  ⟨by decide, sv_process_off_gates ⟨false, true, true⟩ (by decide)⟩

/-- C6: copying a node resets the copy's stored id to the empty string, so
the next read of the copy's `node_id` yields the freshly generated value,
which is distinct from the original's id; reading the original's `node_id`
before and after the copy yields the same, unchanged value. -/
theorem copy_regenerates_node_id (orig : SvNode) (fresh : String)
    (hassigned : orig.n_id ≠ "") (hfresh : fresh ≠ orig.n_id) :
    (copyNode orig).n_id = "" ∧
    (nodeId fresh (copyNode orig)).2 = fresh ∧
    (∀ f, (nodeId f orig).2 = orig.n_id) ∧
    (∀ f, (nodeId fresh (copyNode orig)).2 ≠ (nodeId f orig).2) := by
  refine ⟨rfl, by simp [nodeId, copyNode], fun f => by simp [nodeId, hassigned],
    fun f => ?_⟩
  simp [nodeId, copyNode, hassigned]
  exact hfresh

/-- Witness for C6 at a concrete node and fresh identifier. -/
theorem copy_regenerates_node_id_witness :
    ((SvNode.mk "id-1" ["s"]).n_id ≠ "" ∧ "id-2" ≠ (SvNode.mk "id-1" ["s"]).n_id) ∧
    ((copyNode ⟨"id-1", ["s"]⟩).n_id = "" ∧
     (nodeId "id-2" (copyNode ⟨"id-1", ["s"]⟩)).2 = "id-2" ∧
     (∀ f, (nodeId f ⟨"id-1", ["s"]⟩).2 = (SvNode.mk "id-1" ["s"]).n_id) ∧
     (∀ f, (nodeId "id-2" (copyNode ⟨"id-1", ["s"]⟩)).2 ≠
        (nodeId f ⟨"id-1", ["s"]⟩).2)) :=
  ⟨⟨by decide, by decide⟩,
    copy_regenerates_node_id ⟨"id-1", ["s"]⟩ "id-2" (by decide) (by decide)⟩

/-- C7: adding a link whose destination socket already has an incoming link
does not produce `FanInError`: the operation succeeds and the new link
replaces any old one, so afterwards the destination has exactly one incoming
link, the new one. -/
theorem addLink_replaces (links : List (Nat × Nat)) (l : Nat × Nat) :
    ∃ newLinks, addLink links l = Except.ok newLinks ∧
      newLinks.filter (fun e => decide (e.2 = l.2)) = [l] := by
  refine ⟨_, rfl, ?_⟩
  rw [List.filter_append]
  have h1 : (links.filter (fun e => !(decide (e.2 = l.2)))).filter
      (fun e => decide (e.2 = l.2)) = [] := by
    rw [List.filter_eq_nil_iff]
    intro e he
    rw [List.mem_filter] at he
    simpa using he.2
  rw [h1]
  simp

/-- C8: with a non-None error, `update_ui` renders the node in the
`no_data_color` exactly when the error is `SvNoDataError` and in the
`exception_color` for any other error, and the displayed text is the
original error message itself (hence includes it). -/
theorem update_ui_error_rendering (prefs : Prefs) (e : SvError)
    (t : Option Nat) (n : NodeUI) (m : String) :
    (update_ui prefs (some e) t n).color =
      (if isNoData e then prefs.no_data_color else prefs.exception_color) ∧
    (update_ui prefs (some e) t n).errorDrawing =
      some (errorText e,
        if isNoData e then prefs.no_data_color else prefs.exception_color) ∧
    errorText (SvError.noData m) = m ∧
    errorText (SvError.exception m) = m := by
  refine ⟨?_, ?_, rfl, rfl⟩ <;>
    cases t <;> simp [update_ui, set_temp_color]

/-- C9: calling `update_ui` with `error = none` disables the error drawing
and restores the node's saved user color, and calling it with
`update_time = none` disables the timing drawing; each None argument clears
its own indicator regardless of the other argument. -/
theorem update_ui_none_clears (prefs : Prefs) (t : Option Nat)
    (e : Option SvError) (n : NodeUI) (u0 : Bool) (col : Nat) (u : Bool)
    (c : Nat) (ed : Option (String × Nat)) (td : Option String) :
    (update_ui prefs none t n).errorDrawing = none ∧
    (update_ui prefs e none n).timeDrawing = none ∧
    (update_ui prefs none t ⟨u0, col, some (u, c), ed, td⟩).use_custom_color = u ∧
    (update_ui prefs none t ⟨u0, col, some (u, c), ed, td⟩).color = c ∧
    (update_ui prefs none t ⟨u0, col, some (u, c), ed, td⟩).savedUserColor = none := by
  refine ⟨?_, ?_, ?_, ?_, ?_⟩
  · cases t <;> simp [update_ui, set_temp_color]
  · cases e <;> simp [update_ui, set_temp_color]
  · cases t <;> simp [update_ui, set_temp_color]
  · cases t <;> simp [update_ui, set_temp_color]
  · cases t <;> simp [update_ui, set_temp_color]

/-- C10: an `init_tree` scope sets the flag for its body, and on exit — the
exit runs in a `finally` block, so also when the body raises — the flag is
present iff it was present before entering; a nested scope observes the
flag already present and its exit does not remove it: only the outermost
scope does. -/
theorem initTree_scope_invariants (b : Bool) :
    (initTreeEnter b).1 = true ∧
    initTreeExit (initTreeEnter b).2 (initTreeEnter b).1 = b ∧
    initTreeExit (initTreeEnter (initTreeEnter b).1).2
        (initTreeEnter (initTreeEnter b).1).1 = true ∧
    initTreeExit (initTreeEnter b).2
      (initTreeExit (initTreeEnter (initTreeEnter b).1).2
        (initTreeEnter (initTreeEnter b).1).1) = b := by
  cases b <;> decide

end Sverchok
